import Mathlib

/-
Verification of the settings store of the FlexCore desktop-application shell.

The host process (third main-process variant in the sources, the one with the
settings store) keeps a JSON settings document in memory, exposes IPC handlers
to read it (get-settings), write one dot-path (save-setting), restore defaults
(restore-default-settings) and export it (export-settings), persists it with
JSON.stringify(settings, null, 2) on every mutation, and registers global
shortcuts from the advanced.keyboardShortcuts section.  The renderer applies
appearance options through fixed lookup tables (applyTheme, applyFont).

The embedding models JSON documents as trees of own enumerable properties
(the domain of the settings store); numbers are the integers the settings
schema uses.  JavaScript objects are association lists preserving insertion
order, as Object semantics and JSON.stringify do.
-/

/-- A JSON value as held by the settings store: null, booleans, numbers
(integers, which is all the schema contains), strings, and objects whose
fields are an insertion-ordered association list. -/
inductive JValue where
  | jnull
  | jbool (b : Bool)
  | jnum (n : Int)
  | jstr (s : String)
  | jobj (fields : List (String × JValue))

/-- Structural (deep) equality on JSON values, the model of a deep-equal
comparison of two settings documents. -/
def beqJ : JValue → JValue → Bool
  | .jnull, .jnull => true
  | .jbool a, .jbool b => a = b
  | .jnum a, .jnum b => a = b
  | .jstr a, .jstr b => a = b
  | .jobj a, .jobj b => beqFields a b
  | _, _ => false
where beqFields : List (String × JValue) → List (String × JValue) → Bool
  | [], [] => true
  | (k1, v1) :: t1, (k2, v2) :: t2 => k1 = k2 && beqJ v1 v2 && beqFields t1 t2
  | _, _ => false

/-- Property read on a JavaScript object: the value of the own property named
by the key, if present. -/
def alLookup {α : Type} : List (String × α) → String → Option α
  | [], _ => none
  | (k', v) :: fs, k => if k' = k then some v else alLookup fs k

/-- Property write on a JavaScript object: an existing key keeps its position
and gets the new value; a new key is appended, as JS insertion order does. -/
def alInsert {α : Type} : List (String × α) → String → α → List (String × α)
  | [], k, v => [(k, v)]
  | (k', v') :: fs, k, v =>
      if k' = k then (k', v) :: fs else (k', v') :: alInsert fs k v

/-- JavaScript truthiness of a JSON value: null, false, 0 and the empty
string are falsy; every object is truthy. -/
def truthy : JValue → Bool
  | .jnull => false
  | .jbool b => b
  | .jnum n => n != 0
  | .jstr s => s != ""
  | .jobj _ => true

/-- Whether a value is an object (a mapping level). -/
def JValue.isObj : JValue → Bool
  | .jobj _ => true
  | _ => false

/-- Helper for jsSplitDot: accumulates the current segment (reversed). -/
def splitDotsAux (cur : List Char) : List Char → List String
  | [] => [String.mk cur.reverse]
  | c :: cs =>
      if c = '.' then String.mk cur.reverse :: splitDotsAux [] cs
      else splitDotsAux (c :: cur) cs

/-- The model of the JS expression key.split(dot) used by the save-setting
handler: splits on the dot character; the empty string yields one empty
segment, and the result is never empty. -/
def jsSplitDot (s : String) : List String := splitDotsAux [] s.data

/-- The dot-path write loop of the save-setting handler, on an explicit
segment list.  Mirrors:

  let current = this.settings;
  for (let i = 0; i < keys.length - 1; i++) \x7b
    if (!current[keys[i]]) current[keys[i]] = \x7b\x7d;
    current = current[keys[i]];
  \x7d
  current[keys[keys.length - 1]] = value;

At an intermediate segment, a falsy current value (absent key included) is
replaced by a fresh empty object before descending; a truthy object is
descended into.  A truthy non-object current value makes the next property
write silently discard (primitive wrapper) and the step after that dereference
undefined, a TypeError, so with two or more segments remaining it is an error;
at the leaf, a property write on a non-null primitive is silently discarded
and on null is a TypeError.  The error value models the handler throwing. -/
def setKeys : JValue → List String → JValue → Except Unit JValue
  | v, [], _ => .ok v
  | v, [k], value =>
      match v with
      | .jobj fs => .ok (.jobj (alInsert fs k value))
      | .jnull => .error ()
      | _ => .ok v
  | v, k :: k' :: ks, value =>
      match v with
      | .jobj fs =>
          (setKeys (match alLookup fs k with
                    | some c => if truthy c then c else .jobj []
                    | none => .jobj []) (k' :: ks) value).map
            (fun r => .jobj (alInsert fs k r))
      | _ => .error ()

/-- The value a dot-path addresses inside a document (descending through
object fields); none when a segment is missing or a non-object is hit. -/
def getKeys : JValue → List String → Option JValue
  | v, [] => some v
  | .jobj fs, k :: ks =>
      match alLookup fs k with
      | some c => getKeys c ks
      | none => none
  | _, _ :: _ => none

/-- A dot-path is valid for a write into a document when the write loop stays
inside objects: every intermediate segment currently holds an object or a
falsy or absent value (which the loop replaces by a fresh object), and the
leaf write lands in an object. -/
def validSet : JValue → List String → Bool
  | .jobj _, [_] => true
  | .jobj fs, k :: k' :: ks =>
      (match alLookup fs k with
       | some c =>
           if truthy c then validSet c (k' :: ks)
           else validSet (.jobj []) (k' :: ks)
       | none => validSet (.jobj []) (k' :: ks))
  | _, _ => false

/-- Every node along a dot-path, the leaf's parent included, is an object
with the next segment present: the shape a successful write leaves behind. -/
def pathObjs : JValue → List String → Bool
  | _, [] => false
  | v, [_] => v.isObj
  | v, k :: k' :: ks =>
      match v with
      | .jobj fs =>
          (match alLookup fs k with
           | some c => pathObjs c (k' :: ks)
           | none => false)
      | _ => false

/-- The walk from a document through existing object fields along a segment
list, ending at an object: the precondition for a deeper write to pass
through those exact nodes. -/
def walksObjs : JValue → List String → Bool
  | .jobj _, [] => true
  | .jobj fs, k :: ks =>
      (match alLookup fs k with
       | some c => walksObjs c ks
       | none => false)
  | _, _ => false

/-- Node count of a document, the fuel bound for the parser. -/
def jsize : JValue → Nat
  | .jobj fs => 1 + jsizeFields fs
  | _ => 1
where jsizeFields : List (String × JValue) → Nat
  | [] => 0
  | (_, v) :: ms => 1 + jsize v + jsizeFields ms

/-- A hexadecimal digit character, lowercase, as JSON.stringify emits. -/
def hexDigitChar (d : Nat) : Char :=
  if d < 10 then Char.ofNat (48 + d) else Char.ofNat (87 + d)

/-- JSON.stringify escaping of one string character: quote and backslash,
the named control escapes, a u-escape for the remaining control characters,
and every other character unchanged. -/
def escChar (c : Char) : List Char :=
  if c = '"' then ['\\', '"']
  else if c = '\\' then ['\\', '\\']
  else if c = Char.ofNat 8 then ['\\', 'b']
  else if c = Char.ofNat 12 then ['\\', 'f']
  else if c = '\n' then ['\\', 'n']
  else if c = '\r' then ['\\', 'r']
  else if c = '\t' then ['\\', 't']
  else if c.toNat < 32 then
    ['\\', 'u', '0', '0', hexDigitChar (c.toNat / 16), hexDigitChar (c.toNat % 16)]
  else [c]

/-- Escape every character of a string body. -/
def escList : List Char → List Char
  | [] => []
  | c :: cs => escChar c ++ escList cs

/-- A JSON string literal: quoted, escaped body. -/
def quoteStr (s : String) : List Char := '"' :: (escList s.data ++ ['"'])

/-- The decimal digit character for d below ten. -/
def digitChar (d : Nat) : Char := Char.ofNat (48 + d)

/-- Decimal digits of a natural number, most significant first, in front of
an accumulator; structural on an explicit fuel so the kernel can reduce it. -/
def natDigitsA : Nat → Nat → List Char → List Char
  | 0, _, acc => acc
  | fuel + 1, n, acc =>
      if n < 10 then digitChar n :: acc
      else natDigitsA fuel (n / 10) (digitChar (n % 10) :: acc)

/-- Decimal digits of a natural number (the fuel n + 1 always suffices). -/
def natDigits (n : Nat) : List Char := natDigitsA (n + 1) n []

/-- The decimal notation of an integer, as JSON.stringify emits it. -/
def intChars (i : Int) : List Char :=
  if i < 0 then '-' :: natDigits i.natAbs else natDigits i.natAbs

/-- The two-spaces-per-level indentation of JSON.stringify(v, null, 2). -/
def pad (lvl : Nat) : List Char := List.replicate (2 * lvl) ' '

/-- The exact character stream of JSON.stringify(v, null, 2) at nesting
level lvl: scalars inline; a nonempty object opens with a brace and newline,
indents each field by one more level, writes key, colon, space, value,
separates fields with comma and newline, and closes with newline,
the level's indent, and a brace. -/
def renderV (lvl : Nat) : JValue → List Char
  | .jnull => ['n', 'u', 'l', 'l']
  | .jbool true => ['t', 'r', 'u', 'e']
  | .jbool false => ['f', 'a', 'l', 's', 'e']
  | .jnum n => intChars n
  | .jstr s => quoteStr s
  | .jobj [] => ['{', '}']
  | .jobj (m :: ms) =>
      '{' :: '\n' :: (renderMems lvl (m :: ms) ++ '\n' :: (pad lvl ++ ['}']))
where renderMems (lvl : Nat) : List (String × JValue) → List Char
  | [] => []
  | [(k, v)] => pad (lvl + 1) ++ (quoteStr k ++ ':' :: ' ' :: renderV (lvl + 1) v)
  | (k, v) :: m2 :: ms =>
      pad (lvl + 1) ++ (quoteStr k ++ ':' :: ' ' :: renderV (lvl + 1) v) ++
        ',' :: '\n' :: renderMems lvl (m2 :: ms)

/-- The model of JSON.stringify(v, null, 2) on a settings document. -/
def stringify2 (v : JValue) : String := String.mk (renderV 0 v)

/-- JSON whitespace. -/
def isWsCh (c : Char) : Bool := c = ' ' || c = '\n' || c = '\t' || c = '\r'

/-- Drop leading JSON whitespace. -/
def dropWs : List Char → List Char
  | [] => []
  | c :: cs => if isWsCh c then dropWs cs else c :: cs

/-- A decimal digit character. -/
def isDigitCh (c : Char) : Bool := 48 ≤ c.toNat && c.toNat ≤ 57

/-- Split a character list into its leading digit run and the remainder. -/
def takeDigitsL : List Char → List Char × List Char
  | [] => ([], [])
  | c :: cs =>
      if isDigitCh c then
        let p := takeDigitsL cs
        (c :: p.1, p.2)
      else ([], c :: cs)

/-- The natural number a digit run denotes. -/
def digitsToNat (ds : List Char) : Nat :=
  ds.foldl (fun acc c => acc * 10 + (c.toNat - 48)) 0

/-- Parse an integer: optional minus sign, then a nonempty digit run. -/
def parseNumL (cs : List Char) : Option (Int × List Char) :=
  match cs with
  | '-' :: r =>
      let p := takeDigitsL r
      if p.1.isEmpty then none else some (-(digitsToNat p.1 : Int), p.2)
  | _ =>
      let p := takeDigitsL cs
      if p.1.isEmpty then none else some ((digitsToNat p.1 : Int), p.2)

/-- Value of a hexadecimal digit character, either case. -/
def hexVal (c : Char) : Option Nat :=
  if 48 ≤ c.toNat && c.toNat ≤ 57 then some (c.toNat - 48)
  else if 97 ≤ c.toNat && c.toNat ≤ 102 then some (c.toNat - 87)
  else if 65 ≤ c.toNat && c.toNat ≤ 70 then some (c.toNat - 55)
  else none

/-- The character a short escape denotes. -/
def unescCh : Char → Option Char
  | '"' => some '"'
  | '\\' => some '\\'
  | '/' => some '/'
  | 'b' => some (Char.ofNat 8)
  | 'f' => some (Char.ofNat 12)
  | 'n' => some '\n'
  | 'r' => some '\r'
  | 't' => some '\t'
  | _ => none

/-- Parse a string body after the opening quote, unescaping, with the
already-read characters accumulated in reverse. -/
def parseStrL : List Char → List Char → Option (String × List Char)
  | acc, '"' :: rest => some (String.mk acc.reverse, rest)
  | acc, '\\' :: 'u' :: a :: b :: c :: d :: rest =>
      (match hexVal a, hexVal b, hexVal c, hexVal d with
       | some va, some vb, some vc, some vd =>
           parseStrL (Char.ofNat (((va * 16 + vb) * 16 + vc) * 16 + vd) :: acc) rest
       | _, _, _, _ => none)
  | acc, '\\' :: e :: rest =>
      (match unescCh e with
       | some ch => parseStrL (ch :: acc) rest
       | none => none)
  | acc, c :: rest => parseStrL (c :: acc) rest
  | _, [] => none

/-- Recursive-descent JSON parser on the grammar the settings documents
inhabit (scalars, integers and objects), structural on a fuel counter.
Whitespace is skipped before a value and around object punctuation, so the
parser accepts the indented output of JSON.stringify(v, null, 2). -/
def parseVal : Nat → List Char → Option (JValue × List Char)
  | 0, _ => none
  | fuel + 1, cs =>
      match dropWs cs with
      | 'n' :: 'u' :: 'l' :: 'l' :: r => some (.jnull, r)
      | 't' :: 'r' :: 'u' :: 'e' :: r => some (.jbool true, r)
      | 'f' :: 'a' :: 'l' :: 's' :: 'e' :: r => some (.jbool false, r)
      | '"' :: r => (parseStrL [] r).map (fun p => (.jstr p.1, p.2))
      | '{' :: r =>
          (match dropWs r with
           | '}' :: r' => some (.jobj [], r')
           | _ => (parseMems fuel (dropWs r)).map (fun p => (.jobj p.1, p.2)))
      | c :: r =>
          if c = '-' || isDigitCh c then
            (parseNumL (c :: r)).map (fun p => (.jnum p.1, p.2))
          else none
      | [] => none
where parseMems : Nat → List Char → Option (List (String × JValue) × List Char)
  | 0, _ => none
  | fuel + 1, cs =>
      match cs with
      | '"' :: r =>
          (match parseStrL [] r with
           | none => none
           | some (k, r1) =>
               match dropWs r1 with
               | ':' :: r2 =>
                   (match parseVal fuel r2 with
                    | none => none
                    | some (v, r3) =>
                        match dropWs r3 with
                        | ',' :: r4 =>
                            (parseMems fuel (dropWs r4)).map
                              (fun p => ((k, v) :: p.1, p.2))
                        | '}' :: r4 => some ([(k, v)], r4)
                        | _ => none)
               | _ => none)
      | _ => none

/-- The model of JSON.parse on a whole document: one value, then nothing but
whitespace; anywhere JSON.parse would throw, none is returned. -/
def parseJson (s : String) : Option JValue :=
  match parseVal (s.data.length + 1) s.data with
  | some (v, r) => if dropWs r = [] then some v else none
  | none => none

/-- The hardcoded default document that loadSettings returns when the
settings file is missing or unreadable (lines 620-642 of the host source). -/
def loadDefaultSettings : JValue :=
  .jobj
    [("appearance", .jobj
        [("theme", .jstr "dark"),
         ("fontFamily", .jstr "smooch-sans"),
         ("accentColor", .jstr "#00a2ff"),
         ("titlebarButtonStyle", .jstr "round")]),
     ("behavior", .jobj
        [("defaultWindowState", .jstr "normal"),
         ("rememberWindowSize", .jbool true),
         ("launchOnStartup", .jbool false),
         ("startMinimizedToTray", .jbool false),
         ("minimizeToTray", .jbool false),
         ("closeToTray", .jbool false),
         ("alwaysOnTop", .jbool false)]),
     ("window", .jobj
        [("width", .jnum 1200),
         ("height", .jnum 800),
         ("x", .jnull),
         ("y", .jnull)])]

/-- The fixed document the restore-default-settings handler installs
(lines 981-1013 of the host source). -/
def restoreDefaultSettings : JValue :=
  .jobj
    [("appearance", .jobj
        [("theme", .jstr "dark"),
         ("fontFamily", .jstr "inconsolata"),
         ("fontSize", .jstr "small"),
         ("accentColor", .jstr "#28ca42"),
         ("titlebarButtonStyle", .jstr "square")]),
     ("behavior", .jobj
        [("defaultWindowState", .jstr "normal"),
         ("rememberWindowSize", .jbool true),
         ("launchOnStartup", .jbool false),
         ("startMinimizedToTray", .jbool true),
         ("minimizeToTray", .jbool false),
         ("closeToTray", .jbool true),
         ("alwaysOnTop", .jbool false)]),
     ("advanced", .jobj
        [("keyboardShortcuts", .jobj
            [("close", .jstr "Ctrl+Q"),
             ("minimize", .jstr "Ctrl+M"),
             ("maximize", .jstr "Ctrl+Shift+M"),
             ("show", .jstr "Ctrl+Shift+S"),
             ("hide", .jstr "Ctrl+H")])]),
     ("window", .jobj
        [("width", .jnum 1200),
         ("height", .jnum 800),
         ("x", .jnull),
         ("y", .jnull)])]

/-- MainWindow.loadSettings: the file content (none when the file does not
exist) is parsed; a missing file or a parse error falls back to the
hardcoded default document.  The read never fails the caller. -/
def loadSettings (file : Option String) : JValue :=
  match file with
  | some txt =>
      (match parseJson txt with
       | some v => v
       | none => loadDefaultSettings)
  | none => loadDefaultSettings

/-- The observable window state the settings side effects touch. -/
structure TrackedWindow where
  alwaysOnTop : Bool

/-- The state the host process holds around the settings store: the
in-memory document, the settings file content (none when absent), the
tracked main window (none before the splash completes or after close), the
OS autostart registration, and the global shortcuts Map of the bound
action-accelerator pairs. -/
structure MainState where
  settings : JValue
  file : Option String
  window : Option TrackedWindow
  autoLaunch : Bool
  boundShortcuts : List (String × JValue)

/-- The get-settings handler: returns the in-memory document. -/
def handleGetSettings (st : MainState) : JValue := st.settings

/-- MainWindow.saveSettings on the success path: the whole in-memory
document is serialized with JSON.stringify(settings, null, 2) and written
synchronously over the settings file.  (A disk error would be caught and
logged, leaving the old file; the model takes the successful write.) -/
def saveSettingsFile (st : MainState) : MainState :=
  { st with file := some (stringify2 st.settings) }

/-- The save-setting handler: splits the key on dots, runs the write loop on
the document, applies the immediate side effects (behavior.alwaysOnTop sets
the tracked window's always-on-top flag when a window exists;
behavior.launchOnStartup re-registers OS autostart), persists the whole
document, and acknowledges with true.  A TypeError in the write loop
propagates to the caller as the error case. -/
def handleSaveSetting (st : MainState) (key : String) (value : JValue) :
    Except Unit (Bool × MainState) :=
  match setKeys st.settings (jsSplitDot key) value with
  | .error e => .error e
  | .ok s' =>
      let win' :=
        if key = "behavior.alwaysOnTop" then
          st.window.map (fun w => { w with alwaysOnTop := truthy value })
        else st.window
      let auto' :=
        if key = "behavior.launchOnStartup" then truthy value else st.autoLaunch
      .ok (true, saveSettingsFile
        { st with settings := s', window := win', autoLaunch := auto' })

/-- The restore-default-settings handler: replaces the in-memory document
with the fixed default document, persists it, and returns it.  It touches
nothing else. -/
def handleRestoreDefaults (st : MainState) : JValue × MainState :=
  let st' := saveSettingsFile { st with settings := restoreDefaultSettings }
  (st'.settings, st')

/-- What the save dialog resolved with. -/
structure SaveDialogResult where
  canceled : Bool
  filePath : Option String

/-- The export result object for a successful write. -/
def exportSuccess (p : String) : JValue :=
  .jobj [("success", .jbool true), ("path", .jstr p)]

/-- The export result object for a failed write. -/
def exportFailure (msg : String) : JValue :=
  .jobj [("success", .jbool false), ("error", .jstr msg)]

/-- The export result object when the dialog was canceled or resolved
without a file path. -/
def exportCanceled : JValue :=
  .jobj [("success", .jbool false), ("canceled", .jbool true)]

/-- The export-settings handler: when the dialog was not canceled and gave a
(truthy) path, the document is serialized and written there, answering with
the success object, or with the failure object carrying the error message if
the write threw; otherwise the canceled object.  The second component is the
file written (path and content), when one was. -/
def handleExportSettings (doc : JValue) (dr : SaveDialogResult)
    (writeRes : Except String Unit) : JValue × Option (String × String) :=
  match dr.filePath with
  | some p =>
      if dr.canceled = false && p != "" then
        (match writeRes with
         | .ok _ => (exportSuccess p, some (p, stringify2 doc))
         | .error msg => (exportFailure msg, none))
      else (exportCanceled, none)
  | none => (exportCanceled, none)

/-- The named actions the shortcut registration knows. -/
def shortcutActionNames : List String :=
  ["close", "minimize", "maximize", "show", "hide"]

/-- How one globalShortcut.register call went: registered, returned false,
or threw. -/
inductive RegOutcome where
  | ok
  | failed
  | raised

/-- Whether a register outcome is the success case. -/
def RegOutcome.isOk : RegOutcome → Bool
  | .ok => true
  | _ => false

/-- An entry of the shortcuts object is attempted at all only when its
accelerator is truthy and its action is one the handler map knows. -/
def eligibleShortcut (e : String × JValue) : Bool :=
  truthy e.2 && shortcutActionNames.contains e.1

/-- What one run of the registration loop produced. -/
structure RegResult where
  registered : List (String × JValue)
  attempted : List (String × JValue)
  failLogs : Nat

/-- The Object.entries(shortcuts).forEach loop of registerGlobalShortcuts:
every eligible entry is attempted in order; a successful registration is
recorded in the Map; a false return or a thrown error is logged (the
try/catch is inside the loop body) and the loop continues with the next
entry.  The outcome function stands for the globalShortcut.register calls. -/
def runRegister (outcome : String × JValue → RegOutcome) :
    List (String × JValue) → RegResult
  | [] => ⟨[], [], 0⟩
  | e :: rest =>
      if eligibleShortcut e then
        let r := runRegister outcome rest
        match outcome e with
        | .ok => ⟨e :: r.registered, e :: r.attempted, r.failLogs⟩
        | .failed => ⟨r.registered, e :: r.attempted, r.failLogs + 1⟩
        | .raised => ⟨r.registered, e :: r.attempted, r.failLogs + 1⟩
      else runRegister outcome rest

/-- The document-element state the renderer's appearance code writes: the
data-theme attribute and the CSS custom properties. -/
structure DomState where
  dataTheme : String
  cssVars : List (String × String)

/-- root.style.setProperty. -/
def setCssVar (d : DomState) (k v : String) : DomState :=
  { d with cssVars := alInsert d.cssVars k v }

/-- The renderer's applyTheme: resolves auto against the OS color-scheme
preference at apply time, records the resolved theme in the data-theme
attribute, and writes the fixed palette of the resolved theme (light, or
else the dark default) into the CSS custom properties. -/
def applyTheme (theme : String) (osPrefersDark : Bool) (d : DomState) : DomState :=
  let actualTheme :=
    if theme = "auto" then (if osPrefersDark then "dark" else "light") else theme
  let d1 := { d with dataTheme := actualTheme }
  if actualTheme = "light" then
    let d2 := setCssVar d1 "--primary-bg" "#ffffff"
    let d3 := setCssVar d2 "--secondary-bg" "#f8f9fa"
    let d4 := setCssVar d3 "--titlebar-bg" "#f8f9fa"
    let d5 := setCssVar d4 "--card-bg" "#ffffff"
    let d6 := setCssVar d5 "--text-primary" "#212529"
    let d7 := setCssVar d6 "--text-secondary" "#6c757d"
    let d8 := setCssVar d7 "--text-muted" "#adb5bd"
    let d9 := setCssVar d8 "--border-color" "#dee2e6"
    setCssVar d9 "--hover-bg" "#e9ecef"
  else
    let d2 := setCssVar d1 "--primary-bg" "#1a1a1a"
    let d3 := setCssVar d2 "--secondary-bg" "#2d2d30"
    let d4 := setCssVar d3 "--titlebar-bg" "#2d2d30"
    let d5 := setCssVar d4 "--card-bg" "#2d2d30"
    let d6 := setCssVar d5 "--text-primary" "#ffffff"
    let d7 := setCssVar d6 "--text-secondary" "#cccccc"
    let d8 := setCssVar d7 "--text-muted" "#888888"
    let d9 := setCssVar d8 "--border-color" "#3e3e42"
    setCssVar d9 "--hover-bg" "#404040"

/-- The renderer's applyFont: the font stack for the selected family, with
the smooch-sans stack as the default branch. -/
def applyFont (fontFamily : String) (d : DomState) : DomState :=
  if fontFamily = "smooch-sans" then
    setCssVar d "--font-family" "\"Smooch Sans\", sans-serif"
  else if fontFamily = "inconsolata" then
    setCssVar d "--font-family" "\"Inconsolata\", monospace"
  else
    setCssVar d "--font-family" "\"Smooch Sans\", sans-serif"

/-- The style applyTheme is responsible for: the data-theme attribute and
the nine palette properties. -/
def themeStyleOf (d : DomState) : String × List (Option String) :=
  (d.dataTheme,
   [alLookup d.cssVars "--primary-bg",
    alLookup d.cssVars "--secondary-bg",
    alLookup d.cssVars "--titlebar-bg",
    alLookup d.cssVars "--card-bg",
    alLookup d.cssVars "--text-primary",
    alLookup d.cssVars "--text-secondary",
    alLookup d.cssVars "--text-muted",
    alLookup d.cssVars "--border-color",
    alLookup d.cssVars "--hover-bg"])

/-- The style applyFont is responsible for. -/
def fontStyleOf (d : DomState) : Option String :=
  alLookup d.cssVars "--font-family"

/-- The host state right after construction with no settings file on disk:
the document is the load default; nothing has been persisted yet; the main
window exists and is not always-on-top; autostart is off (setupAutoLaunch
applied the default false); no shortcuts are bound. -/
def initMainState : MainState :=
  { settings := loadSettings none
    file := none
    window := some { alwaysOnTop := false }
    autoLaunch := false
    boundShortcuts := [] }

/-- No leading character that could extend a decimal number: the shape of
every remainder a rendered number is followed by. -/
def numStop : List Char → Bool
  | [] => true
  | c :: _ => !isDigitCh c

/-! ### Association-list (JS object) lemmas -/

theorem alLookup_alInsert_self {α : Type} (fs : List (String × α)) (k : String) (v : α) :
    alLookup (alInsert fs k v) k = some v := by
  induction fs with
  | nil => simp [alInsert, alLookup]
  | cons hd tl ih =>
      obtain ⟨k', v'⟩ := hd
      by_cases h : k' = k
      · subst h
        simp [alInsert, alLookup]
      · simp [alInsert, alLookup, h, ih]

theorem alLookup_alInsert_ne {α : Type} (fs : List (String × α)) (k k0 : String) (v : α)
    (h : k0 ≠ k) : alLookup (alInsert fs k v) k0 = alLookup fs k0 := by
  induction fs with
  | nil => simp [alInsert, alLookup, Ne.symm h]
  | cons hd tl ih =>
      obtain ⟨k', v'⟩ := hd
      by_cases hk : k' = k
      · subst hk
        simp [alInsert, alLookup, Ne.symm h]
      · simp [alInsert, alLookup, hk, ih]

/-! ### The dot-path write loop on valid paths -/

/-- A fresh empty object admits any nonempty remaining path. -/
theorem validSet_freshObj : ∀ ks : List String, ks ≠ [] → validSet (.jobj []) ks = true
  | [], h => absurd rfl h
  | [_], _ => rfl
  | _ :: k2 :: ks, _ => validSet_freshObj (k2 :: ks) (by simp)

/-- On a valid path the write loop succeeds, leaves every level along the
path an object, and stores the value at the leaf. -/
theorem setKeys_valid :
    ∀ (ks : List String) (v value : JValue), validSet v ks = true →
      ∃ r, setKeys v ks value = .ok r ∧ pathObjs r ks = true ∧
        getKeys r ks = some value
  | [], v, value, h => by simp [validSet] at h
  | [k], v, value, h => by
      cases v <;> simp [validSet] at h
      rename_i fs
      refine ⟨.jobj (alInsert fs k value), rfl, rfl, ?_⟩
      simp [getKeys, alLookup_alInsert_self]
  | k :: k' :: ks, v, value, h => by
      cases v
      case jnull => simp [validSet] at h
      case jbool b => simp [validSet] at h
      case jnum n => simp [validSet] at h
      case jstr s => simp [validSet] at h
      case jobj fs =>
      simp only [validSet] at h
      split at h
      next c hl =>
          by_cases ht : truthy c = true
          · rw [if_pos ht] at h
            obtain ⟨r', hr', hp', hg'⟩ := setKeys_valid (k' :: ks) c value h
            refine ⟨.jobj (alInsert fs k r'), ?_, ?_, ?_⟩
            · simp [setKeys, hl, ht, hr', Except.map]
            · simp [pathObjs, alLookup_alInsert_self, hp']
            · simp [getKeys, alLookup_alInsert_self, hg']
          · rw [if_neg ht] at h
            obtain ⟨r', hr', hp', hg'⟩ := setKeys_valid (k' :: ks) (.jobj []) value h
            refine ⟨.jobj (alInsert fs k r'), ?_, ?_, ?_⟩
            · simp [setKeys, hl, ht, hr', Except.map]
            · simp [pathObjs, alLookup_alInsert_self, hp']
            · simp [getKeys, alLookup_alInsert_self, hg']
      next hl =>
          obtain ⟨r', hr', hp', hg'⟩ := setKeys_valid (k' :: ks) (.jobj []) value h
          refine ⟨.jobj (alInsert fs k r'), ?_, ?_, ?_⟩
          · simp [setKeys, hl, hr', Except.map]
          · simp [pathObjs, alLookup_alInsert_self, hp']
          · simp [getKeys, alLookup_alInsert_self, hg']

theorem getKeys_append :
    ∀ (p q : List String) (v : JValue),
      getKeys v (p ++ q) = (getKeys v p).bind (fun w => getKeys w q)
  | [], q, v => by simp [getKeys]
  | k :: p, q, v => by
      cases v <;> simp only [List.cons_append, getKeys, Option.bind]
      rename_i fs
      cases alLookup fs k with
      | none => simp
      | some c => simpa using getKeys_append p q c

theorem walksObjs_isObj {v : JValue} {p : List String} (h : walksObjs v p = true) :
    v.isObj = true := by
  cases v <;> cases p <;> simp_all [walksObjs, JValue.isObj]

theorem pathObjs_isObj {v : JValue} {ks : List String} (h : pathObjs v ks = true)
    (hne : ks ≠ []) : v.isObj = true := by
  cases ks with
  | nil => exact absurd rfl hne
  | cons k ks =>
      cases ks <;> cases v <;> simp_all [pathObjs, JValue.isObj]

/-- A write whose path extends a walk through existing objects rewrites the
subtree at the end of the walk and nothing outside it. -/
theorem setKeys_under :
    ∀ (pre : List String) (v sub : JValue), walksObjs v pre = true →
      getKeys v pre = some sub →
      ∀ (rest : List String) (value r : JValue), rest ≠ [] →
        setKeys sub rest value = .ok r →
        ∃ v', setKeys v (pre ++ rest) value = .ok v' ∧
          ∀ q, getKeys v' (pre ++ q) = getKeys r q
  | [], v, sub, hw, hg, rest, value, r, hne, hr => by
      simp only [getKeys, Option.some.injEq] at hg
      subst hg
      exact ⟨r, by simpa using hr, fun q => by simp⟩
  | k :: pre, v, sub, hw, hg, rest, value, r, hne, hr => by
      cases v
      case jnull => simp [walksObjs] at hw
      case jbool b => simp [walksObjs] at hw
      case jnum n => simp [walksObjs] at hw
      case jstr s => simp [walksObjs] at hw
      case jobj fs =>
      simp only [walksObjs] at hw
      split at hw
      case h_2 hl => exact absurd hw (by simp)
      case h_1 c hl =>
      have hgc : getKeys c pre = some sub := by
        simpa [getKeys, hl] using hg
      obtain ⟨c', hc', hq⟩ := setKeys_under pre c sub hw hgc rest value r hne hr
      have hobj : c.isObj = true := walksObjs_isObj hw
      cases c <;> simp [JValue.isObj] at hobj
      rename_i cs
      refine ⟨.jobj (alInsert fs k c'), ?_, ?_⟩
      · obtain ⟨k2, ks2, hsh⟩ : ∃ k2 ks2, pre ++ rest = k2 :: ks2 := by
          cases hpre : pre ++ rest with
          | nil =>
              rw [List.append_eq_nil] at hpre
              exact absurd hpre.2 hne
          | cons a b => exact ⟨a, b, rfl⟩
        rw [List.cons_append, hsh]
        rw [hsh] at hc'
        simp [setKeys, hl, truthy, hc', Except.map]
      · intro q
        rw [List.cons_append]
        simp only [getKeys, alLookup_alInsert_self]
        exact hq q

/-- The write loop cannot throw on a two-segment path rooted at an object:
whatever the intermediate holds, the leaf write either lands in an object,
or is silently discarded on a truthy primitive. -/
theorem setKeys_two_ok (fs : List (String × JValue)) (k1 k2 : String) (value : JValue) :
    ∃ r, setKeys (.jobj fs) [k1, k2] value = .ok r := by
  cases hl : alLookup fs k1 with
  | none =>
      exact ⟨.jobj (alInsert fs k1 (.jobj (alInsert [] k2 value))),
        by simp [setKeys, hl, Except.map]⟩
  | some c =>
      by_cases ht : truthy c = true
      · cases c
        · simp [truthy] at ht
        · rename_i b
          exact ⟨.jobj (alInsert fs k1 (.jbool b)),
            by simp [setKeys, hl, ht, Except.map]⟩
        · rename_i n
          exact ⟨.jobj (alInsert fs k1 (.jnum n)),
            by simp [setKeys, hl, ht, Except.map]⟩
        · rename_i s
          exact ⟨.jobj (alInsert fs k1 (.jstr s)),
            by simp [setKeys, hl, ht, Except.map]⟩
        · rename_i cs
          exact ⟨.jobj (alInsert fs k1 (.jobj (alInsert cs k2 value))),
            by simp [setKeys, hl, ht, Except.map]⟩
      · exact ⟨.jobj (alInsert fs k1 (.jobj (alInsert [] k2 value))),
          by simp [setKeys, hl, ht, Except.map]⟩

/-- C1: for every valid dot-path p and value v, the save-setting handler
acknowledges with true and afterwards the document returned by the
get-settings handler holds v at the address p. -/
theorem save_then_get_yields_value :
    ∀ (st : MainState) (key : String) (value : JValue),
      validSet st.settings (jsSplitDot key) = true →
      ∃ st', handleSaveSetting st key value = .ok (true, st') ∧
        getKeys (handleGetSettings st') (jsSplitDot key) = some value := by
  intro st key value h
  obtain ⟨r, hr, _, hg⟩ := setKeys_valid (jsSplitDot key) st.settings value h
  have hh : handleSaveSetting st key value =
      .ok (true, saveSettingsFile
        { st with
          settings := r
          window :=
            if key = "behavior.alwaysOnTop" then
              st.window.map (fun w => { w with alwaysOnTop := truthy value })
            else st.window
          autoLaunch :=
            if key = "behavior.launchOnStartup" then truthy value
            else st.autoLaunch }) := by
    simp only [handleSaveSetting, hr]
  refine ⟨_, hh, ?_⟩
  simpa [handleGetSettings, saveSettingsFile] using hg

/-- Witness for C1: on the freshly loaded default document, writing
appearance.theme to the string light and reading it back returns light. -/
theorem save_then_get_yields_value_witness :
    validSet initMainState.settings (jsSplitDot "appearance.theme") = true ∧
    ∃ st', handleSaveSetting initMainState "appearance.theme" (.jstr "light") =
        .ok (true, st') ∧
      getKeys (handleGetSettings st') (jsSplitDot "appearance.theme") =
        some (.jstr "light") :=
  ⟨by decide,
   save_then_get_yields_value initMainState "appearance.theme" (.jstr "light")
     (by decide)⟩

/-- C9: when an intermediate segment of a dot-path with at least two
segments currently holds a falsy value, the write replaces it with a fresh
mapping before descending, so the value previously stored at that
intermediate address is lost. -/
theorem falsy_intermediate_lost :
    ∀ (v : JValue) (pre : List String) (fs : List (String × JValue)) (k : String)
      (c : JValue) (ks : List String) (value : JValue),
      walksObjs v pre = true →
      getKeys v pre = some (.jobj fs) →
      alLookup fs k = some c →
      truthy c = false →
      ks ≠ [] →
      ∃ v', setKeys v (pre ++ k :: ks) value = .ok v' ∧
        getKeys v (pre ++ [k]) = some c ∧
        ∃ d, getKeys v' (pre ++ [k]) = some d ∧ d.isObj = true ∧ d ≠ c := by
  intro v pre fs k c ks value hw hg hl ht hne
  obtain ⟨r, hr, hp, _⟩ := setKeys_valid ks (.jobj []) value (validSet_freshObj ks hne)
  have hro : r.isObj = true := pathObjs_isObj hp hne
  have hinner : setKeys (.jobj fs) (k :: ks) value = .ok (.jobj (alInsert fs k r)) := by
    obtain ⟨k2, ks2, rfl⟩ : ∃ k2 ks2, ks = k2 :: ks2 := by
      cases ks with
      | nil => exact absurd rfl hne
      | cons a b => exact ⟨a, b, rfl⟩
    simp [setKeys, hl, ht, hr, Except.map]
  obtain ⟨v', hv', hq⟩ :=
    setKeys_under pre v (.jobj fs) hw hg (k :: ks) value (.jobj (alInsert fs k r))
      (by simp) hinner
  refine ⟨v', hv', ?_, r, ?_, hro, ?_⟩
  · rw [getKeys_append, hg]
    simp [getKeys, hl]
  · rw [hq [k]]
    simp [getKeys, alLookup_alInsert_self]
  · intro he
    rw [he] at hro
    cases c <;> simp [JValue.isObj] at hro
    simp [truthy] at ht

/-- Witness for C9: in the document where a holds the mapping with b false,
writing a.b.c replaces the false at a.b with a mapping; the false is gone. -/
theorem falsy_intermediate_lost_witness :
    walksObjs (.jobj [("a", .jobj [("b", .jbool false)])]) ["a"] = true ∧
    ∃ v', setKeys (.jobj [("a", .jobj [("b", .jbool false)])])
        (["a"] ++ "b" :: ["c"]) (.jstr "v") = .ok v' ∧
      getKeys (.jobj [("a", .jobj [("b", .jbool false)])]) (["a"] ++ ["b"]) =
        some (.jbool false) ∧
      ∃ d, getKeys v' (["a"] ++ ["b"]) = some d ∧ d.isObj = true ∧
        d ≠ .jbool false :=
  ⟨by decide,
   falsy_intermediate_lost (.jobj [("a", .jobj [("b", .jbool false)])]) ["a"]
     [("b", .jbool false)] "b" (.jbool false) ["c"] (.jstr "v")
     (by decide) (by rfl) (by rfl) (by decide) (by simp)⟩

/-- Counterexample to C5 as stated: in the document where a holds the
truthy string x, the intermediate segment a of the path a.b has no mapping,
yet the accepted write creates no mapping level there and does not assign
the value at the leaf (the document is unchanged); with one more segment,
a.b.c, the write throws instead. -/
theorem set_missing_mapping_cex :
    setKeys (.jobj [("a", .jstr "x")]) (jsSplitDot "a.b") (.jstr "v") =
      .ok (.jobj [("a", .jstr "x")]) ∧
    getKeys (.jobj [("a", .jstr "x")]) (jsSplitDot "a.b") = none ∧
    setKeys (.jobj [("a", .jstr "x")]) (jsSplitDot "a.b.c") (.jstr "v") =
      .error () :=
  ⟨rfl, rfl, rfl⟩

/-- C5 amended: the write creates a fresh empty mapping at an intermediate
segment exactly when the current value there is absent or falsy; a truthy
non-mapping intermediate value is descended into as is, losing the write.
Hence on every path whose intermediate segments hold mappings or absent or
falsy values, the write succeeds, every level along the path is a mapping
afterwards, and the value sits at the leaf. -/
theorem set_creates_missing_levels :
    ∀ (v : JValue) (key : String) (value : JValue),
      validSet v (jsSplitDot key) = true →
      ∃ r, setKeys v (jsSplitDot key) value = .ok r ∧
        pathObjs r (jsSplitDot key) = true ∧
        getKeys r (jsSplitDot key) = some value :=
  fun v key value h => setKeys_valid (jsSplitDot key) v value h

/-- Witness for the amended C5: writing a.b into an empty document creates
the intermediate mapping a and stores the value at a.b. -/
theorem set_creates_missing_levels_witness :
    validSet (.jobj []) (jsSplitDot "a.b") = true ∧
    ∃ r, setKeys (.jobj []) (jsSplitDot "a.b") (.jstr "v") = .ok r ∧
      pathObjs r (jsSplitDot "a.b") = true ∧
      getKeys r (jsSplitDot "a.b") = some (.jstr "v") :=
  ⟨by decide, set_creates_missing_levels (.jobj []) "a.b" (.jstr "v") (by decide)⟩

/-- C6: writing behavior.alwaysOnTop with the boolean b never throws when
the document is an object, acknowledges with true, and as an immediate side
effect sets the tracked window's always-on-top state to b; in particular
true turns it on and false turns it back off. -/
theorem alwaysOnTop_side_effect :
    ∀ (st : MainState) (fs : List (String × JValue)) (w : TrackedWindow) (b : Bool),
      st.settings = .jobj fs → st.window = some w →
      ∃ st', handleSaveSetting st "behavior.alwaysOnTop" (.jbool b) =
          .ok (true, st') ∧
        st'.window = some { alwaysOnTop := b } := by
  intro st fs w b hs hw
  obtain ⟨r, hr⟩ := setKeys_two_ok fs "behavior" "alwaysOnTop" (.jbool b)
  have hr' : setKeys st.settings (jsSplitDot "behavior.alwaysOnTop") (.jbool b) =
      .ok r := by rw [hs]; exact hr
  refine ⟨saveSettingsFile
      { st with
        settings := r
        window := st.window.map (fun w => { w with alwaysOnTop := truthy (.jbool b) })
        autoLaunch := st.autoLaunch }, ?_, ?_⟩
  · simp [handleSaveSetting, hr']
  · simp [saveSettingsFile, hw, truthy]

/-- Witness for C6: on the initial state, the write flips the window's
always-on-top flag to true. -/
theorem alwaysOnTop_side_effect_witness :
    initMainState.settings = .jobj
      [("appearance", .jobj
          [("theme", .jstr "dark"),
           ("fontFamily", .jstr "smooch-sans"),
           ("accentColor", .jstr "#00a2ff"),
           ("titlebarButtonStyle", .jstr "round")]),
       ("behavior", .jobj
          [("defaultWindowState", .jstr "normal"),
           ("rememberWindowSize", .jbool true),
           ("launchOnStartup", .jbool false),
           ("startMinimizedToTray", .jbool false),
           ("minimizeToTray", .jbool false),
           ("closeToTray", .jbool false),
           ("alwaysOnTop", .jbool false)]),
       ("window", .jobj
          [("width", .jnum 1200),
           ("height", .jnum 800),
           ("x", .jnull),
           ("y", .jnull)])] ∧
    initMainState.window = some { alwaysOnTop := false } ∧
    ∃ st', handleSaveSetting initMainState "behavior.alwaysOnTop" (.jbool true) =
        .ok (true, st') ∧
      st'.window = some { alwaysOnTop := true } :=
  ⟨by rfl, by rfl,
   alwaysOnTop_side_effect initMainState _ { alwaysOnTop := false } true
     (by rfl) (by rfl)⟩

/-- C10: restoring defaults replaces and persists the document but leaves
the tracked window (its always-on-top state included), the OS autostart
registration, and the bound global shortcuts exactly as they were. -/
theorem restore_defaults_no_side_effects :
    ∀ st : MainState,
      (handleRestoreDefaults st).2.window = st.window ∧
      (handleRestoreDefaults st).2.autoLaunch = st.autoLaunch ∧
      (handleRestoreDefaults st).2.boundShortcuts = st.boundShortcuts ∧
      (handleRestoreDefaults st).2.settings = restoreDefaultSettings ∧
      (handleRestoreDefaults st).1 = restoreDefaultSettings := by
  intro st
  simp [handleRestoreDefaults, saveSettingsFile]

/-- C7: whatever each register call returns or throws, the registration
loop attempts every eligible entry of the shortcut map, and every eligible
entry whose registration did not succeed produces one log line. -/
theorem shortcut_failures_do_not_abort :
    ∀ (outcome : String × JValue → RegOutcome) (entries : List (String × JValue)),
      (runRegister outcome entries).attempted = entries.filter eligibleShortcut ∧
      (runRegister outcome entries).failLogs =
        (entries.filter (fun e => eligibleShortcut e && !(outcome e).isOk)).length := by
  intro outcome entries
  induction entries with
  | nil => simp [runRegister]
  | cons e rest ih =>
      by_cases he : eligibleShortcut e = true
      · cases ho : outcome e <;>
          simp [runRegister, he, ho, RegOutcome.isOk, ih.1, ih.2, List.filter_cons]
      · simp [runRegister, he, ih.1, ih.2, List.filter_cons,
          Bool.eq_false_iff.mpr he]

/-- C4: the export handler always answers with one of exactly three result
objects: success with the chosen path, the canceled object, or failure with
the error message; by totality it never throws to its caller. -/
theorem export_returns_discriminated_result :
    ∀ (doc : JValue) (dr : SaveDialogResult) (writeRes : Except String Unit),
      (∃ p, (handleExportSettings doc dr writeRes).1 = exportSuccess p) ∨
      (handleExportSettings doc dr writeRes).1 = exportCanceled ∨
      (∃ msg, (handleExportSettings doc dr writeRes).1 = exportFailure msg) := by
  intro doc dr writeRes
  unfold handleExportSettings
  cases dr.filePath with
  | none => exact Or.inr (Or.inl rfl)
  | some p =>
      simp only []
      split
      · cases writeRes with
        | ok u => exact Or.inl ⟨p, rfl⟩
        | error msg => exact Or.inr (Or.inr ⟨msg, rfl⟩)
      · exact Or.inr (Or.inl rfl)

/-- Counterexample to C2: the default document that a load from a missing
file returns is not equal to the document restoreDefaults installs. -/
theorem load_default_ne_restore_default_cex :
    loadSettings none ≠ restoreDefaultSettings := by
  intro h
  simp [loadSettings, loadDefaultSettings, restoreDefaultSettings] at h

/-- C2 amended: loading from a missing or unparseable file yields the
hardcoded load default, which differs from the restoreDefaults document at
appearance.fontFamily, accentColor and titlebarButtonStyle, lacks its
appearance.fontSize and advanced.keyboardShortcuts entries, and differs at
behavior.startMinimizedToTray and closeToTray; the two agree on
appearance.theme and on the window section. -/
theorem load_default_vs_restore_default :
    loadSettings none = loadDefaultSettings ∧
    loadSettings (some "not a JSON document") = loadDefaultSettings ∧
    getKeys loadDefaultSettings ["appearance", "fontFamily"] =
      some (.jstr "smooch-sans") ∧
    getKeys restoreDefaultSettings ["appearance", "fontFamily"] =
      some (.jstr "inconsolata") ∧
    getKeys loadDefaultSettings ["appearance", "accentColor"] =
      some (.jstr "#00a2ff") ∧
    getKeys restoreDefaultSettings ["appearance", "accentColor"] =
      some (.jstr "#28ca42") ∧
    getKeys loadDefaultSettings ["appearance", "titlebarButtonStyle"] =
      some (.jstr "round") ∧
    getKeys restoreDefaultSettings ["appearance", "titlebarButtonStyle"] =
      some (.jstr "square") ∧
    getKeys loadDefaultSettings ["appearance", "fontSize"] = none ∧
    getKeys restoreDefaultSettings ["appearance", "fontSize"] =
      some (.jstr "small") ∧
    getKeys loadDefaultSettings ["behavior", "startMinimizedToTray"] =
      some (.jbool false) ∧
    getKeys restoreDefaultSettings ["behavior", "startMinimizedToTray"] =
      some (.jbool true) ∧
    getKeys loadDefaultSettings ["behavior", "closeToTray"] =
      some (.jbool false) ∧
    getKeys restoreDefaultSettings ["behavior", "closeToTray"] =
      some (.jbool true) ∧
    getKeys loadDefaultSettings ["advanced"] = none ∧
    getKeys restoreDefaultSettings ["advanced", "keyboardShortcuts", "close"] =
      some (.jstr "Ctrl+Q") ∧
    getKeys loadDefaultSettings ["appearance", "theme"] = some (.jstr "dark") ∧
    getKeys restoreDefaultSettings ["appearance", "theme"] = some (.jstr "dark") ∧
    getKeys loadDefaultSettings ["window"] = getKeys restoreDefaultSettings ["window"] :=
  ⟨rfl, rfl, rfl, rfl, rfl, rfl, rfl, rfl, rfl, rfl, rfl, rfl, rfl, rfl, rfl,
   rfl, rfl, rfl, rfl⟩

/-- C8: the appearance mapping is pure and stateless: for one and the same
selected theme value (with the OS color-scheme preference it resolves auto
against) the applied data-theme attribute and palette properties are
identical whatever document-element state the call starts from, and
likewise the font stack applied for a font-family value. -/
theorem theme_font_mapping_stateless :
    ∀ (theme : String) (osPrefersDark : Bool) (fontFamily : String)
      (d1 d2 : DomState),
      themeStyleOf (applyTheme theme osPrefersDark d1) =
        themeStyleOf (applyTheme theme osPrefersDark d2) ∧
      fontStyleOf (applyFont fontFamily d1) = fontStyleOf (applyFont fontFamily d2) := by
  intro theme os f d1 d2
  constructor
  · simp only [applyTheme]
    split_ifs <;>
      simp [themeStyleOf, setCssVar, alLookup_alInsert_self, alLookup_alInsert_ne]
  · simp only [applyFont]
    split_ifs <;> simp [fontStyleOf, setCssVar, alLookup_alInsert_self]

/-! ### Decimal digits round-trip -/

theorem digitChar_spec : ∀ d : Nat, d < 10 →
    isDigitCh (digitChar d) = true ∧ (digitChar d).toNat = 48 + d := by
  intro d h
  interval_cases d <;> exact ⟨by decide, by decide⟩

theorem natDigitsA_shift :
    ∀ (fuel n : Nat) (acc : List Char),
      natDigitsA fuel n acc = natDigitsA fuel n [] ++ acc
  | 0, n, acc => by simp [natDigitsA]
  | fuel + 1, n, acc => by
      by_cases h : n < 10
      · simp [natDigitsA, h]
      · simp only [natDigitsA, if_neg h]
        rw [natDigitsA_shift fuel (n / 10) (digitChar (n % 10) :: acc),
          natDigitsA_shift fuel (n / 10) [digitChar (n % 10)]]
        simp

theorem natDigitsA_all_digits :
    ∀ (fuel n : Nat), n < fuel → ∀ c ∈ natDigitsA fuel n [], isDigitCh c = true
  | 0, n, h => by omega
  | fuel + 1, n, h => by
      by_cases h10 : n < 10
      · simp only [natDigitsA, if_pos h10, List.mem_singleton]
        rintro c rfl
        exact (digitChar_spec n h10).1
      · simp only [natDigitsA, if_neg h10]
        rw [natDigitsA_shift]
        intro c hc
        rcases List.mem_append.mp hc with hin | hin
        · have hlt : n / 10 < fuel := by
            have := Nat.div_lt_self (by omega : 0 < n) (by omega : 1 < 10)
            omega
          exact natDigitsA_all_digits fuel (n / 10) hlt c hin
        · rw [List.mem_singleton] at hin
          subst hin
          exact (digitChar_spec (n % 10) (Nat.mod_lt _ (by omega))).1

theorem natDigitsA_val :
    ∀ (fuel n : Nat), n < fuel → digitsToNat (natDigitsA fuel n []) = n
  | 0, n, h => by omega
  | fuel + 1, n, h => by
      by_cases h10 : n < 10
      · simp only [natDigitsA, if_pos h10, digitsToNat, List.foldl_cons, List.foldl_nil]
        rw [(digitChar_spec n h10).2]
        omega
      · simp only [natDigitsA, if_neg h10]
        rw [natDigitsA_shift]
        have hlt : n / 10 < fuel := by
          have := Nat.div_lt_self (by omega : 0 < n) (by omega : 1 < 10)
          omega
        simp only [digitsToNat, List.foldl_append, List.foldl_cons, List.foldl_nil]
        have hv := natDigitsA_val fuel (n / 10) hlt
        simp only [digitsToNat] at hv
        rw [hv, (digitChar_spec (n % 10) (Nat.mod_lt _ (by omega))).2]
        omega

theorem natDigitsA_ne_nil (fuel n : Nat) (h : n < fuel) :
    natDigitsA fuel n [] ≠ [] := by
  cases fuel with
  | zero => omega
  | succ fuel =>
      by_cases h10 : n < 10
      · simp [natDigitsA, h10]
      · simp only [natDigitsA, if_neg h10]
        rw [natDigitsA_shift]
        simp

theorem natDigits_all_digits (n : Nat) : ∀ c ∈ natDigits n, isDigitCh c = true :=
  natDigitsA_all_digits (n + 1) n (by omega)

theorem natDigits_val (n : Nat) : digitsToNat (natDigits n) = n :=
  natDigitsA_val (n + 1) n (by omega)

theorem natDigits_ne_nil (n : Nat) : natDigits n ≠ [] :=
  natDigitsA_ne_nil (n + 1) n (by omega)

theorem natDigits_head (n : Nat) :
    ∃ d t, d < 10 ∧ natDigits n = digitChar d :: t := by
  unfold natDigits
  generalize hf : n + 1 = fuel
  have h : n < fuel := by omega
  clear hf
  induction fuel generalizing n with
  | zero => omega
  | succ fuel ih =>
      by_cases h10 : n < 10
      · exact ⟨n, [], h10, by simp [natDigitsA, h10]⟩
      · have hlt : n / 10 < fuel := by
          have := Nat.div_lt_self (by omega : 0 < n) (by omega : 1 < 10)
          omega
        obtain ⟨d, t, hd, ht⟩ := ih (n / 10) hlt
        refine ⟨d, t ++ [digitChar (n % 10)], hd, ?_⟩
        simp only [natDigitsA, if_neg h10]
        rw [natDigitsA_shift, ht]
        simp

theorem takeDigitsL_stop {rest : List Char} (h : numStop rest = true) :
    takeDigitsL rest = ([], rest) := by
  cases rest with
  | nil => rfl
  | cons c t =>
      simp only [numStop, Bool.not_eq_true'] at h
      simp [takeDigitsL, h]

theorem takeDigitsL_run :
    ∀ (ds rest : List Char), (∀ c ∈ ds, isDigitCh c = true) → numStop rest = true →
      takeDigitsL (ds ++ rest) = (ds, rest)
  | [], rest, _, hr => by simpa using takeDigitsL_stop hr
  | d :: ds, rest, hds, hr => by
      have hd : isDigitCh d = true := hds d (by simp)
      have ht := takeDigitsL_run ds rest (fun c hc => hds c (by simp [hc])) hr
      simp [takeDigitsL, hd, ht]

theorem parseNumL_cons_not_neg {c : Char} (r : List Char) (h : c ≠ '-') :
    parseNumL (c :: r) =
      (if (takeDigitsL (c :: r)).1.isEmpty then none
       else some ((digitsToNat (takeDigitsL (c :: r)).1 : Int),
         (takeDigitsL (c :: r)).2)) := by
  rw [parseNumL.eq_def]
  split
  · rename_i heq
    rw [List.cons.injEq] at heq
    exact absurd heq.1 h
  · rfl

theorem parseNumL_intChars (i : Int) (rest : List Char) (hr : numStop rest = true) :
    parseNumL (intChars i ++ rest) = some (i, rest) := by
  by_cases hneg : i < 0
  · have harg : intChars i ++ rest = '-' :: (natDigits i.natAbs ++ rest) := by
      simp [intChars, hneg]
    rw [harg]
    have hrun := takeDigitsL_run (natDigits i.natAbs) rest (natDigits_all_digits _) hr
    have hne : (natDigits i.natAbs).isEmpty = false := by
      cases hni : natDigits i.natAbs with
      | nil => exact absurd hni (natDigits_ne_nil _)
      | cons a b => rfl
    simp only [parseNumL, hrun, hne, Bool.false_eq_true, if_false]
    rw [natDigits_val]
    simp only [Option.some.injEq, Prod.mk.injEq, eq_self_iff_true, and_true]
    omega
  · obtain ⟨d, t, hd, ht⟩ := natDigits_head i.natAbs
    have harg : intChars i ++ rest = digitChar d :: (t ++ rest) := by
      simp [intChars, hneg, ht]
    have hnd : digitChar d ≠ '-' := by
      intro he
      have := (digitChar_spec d hd).1
      rw [he] at this
      simp [isDigitCh] at this
    rw [harg, parseNumL_cons_not_neg _ hnd]
    have hrun : takeDigitsL (digitChar d :: (t ++ rest)) = (digitChar d :: t, rest) := by
      have := takeDigitsL_run (natDigits i.natAbs) rest (natDigits_all_digits _) hr
      rw [ht] at this
      simpa using this
    have hval : digitsToNat (digitChar d :: t) = i.natAbs := by
      have := natDigits_val i.natAbs
      rwa [ht] at this
    rw [hrun]
    simp [hval]
    omega

/-! ### String escaping round-trip -/

theorem hexVal_hexDigitChar : ∀ d : Nat, d < 16 → hexVal (hexDigitChar d) = some d := by
  intro d h
  interval_cases d <;> rfl

theorem parseStrL_esc (c : Char) (acc rest : List Char) :
    parseStrL acc (escChar c ++ rest) = parseStrL (c :: acc) rest := by
  by_cases h1 : c = '"'
  · subst h1; rfl
  by_cases h2 : c = '\\'
  · subst h2; rfl
  by_cases h3 : c = Char.ofNat 8
  · subst h3; rfl
  by_cases h4 : c = Char.ofNat 12
  · subst h4; rfl
  by_cases h5 : c = '\n'
  · subst h5; rfl
  by_cases h6 : c = '\r'
  · subst h6; rfl
  by_cases h7 : c = '\t'
  · subst h7; rfl
  by_cases h8 : c.toNat < 32
  · have hesc : escChar c =
        ['\\', 'u', '0', '0', hexDigitChar (c.toNat / 16), hexDigitChar (c.toNat % 16)] := by
      simp only [escChar, if_neg h1, if_neg h2, if_neg h3, if_neg h4, if_neg h5,
        if_neg h6, if_neg h7, if_pos h8]
    rw [hesc]
    show parseStrL acc ('\\' :: 'u' :: '0' :: '0' ::
        hexDigitChar (c.toNat / 16) :: hexDigitChar (c.toNat % 16) :: rest) = _
    rw [parseStrL]
    rw [show hexVal '0' = some 0 from rfl,
      hexVal_hexDigitChar (c.toNat / 16) (by omega),
      hexVal_hexDigitChar (c.toNat % 16) (by omega)]
    simp only []
    rw [show ((0 * 16 + 0) * 16 + c.toNat / 16) * 16 + c.toNat % 16 = c.toNat by omega]
    rw [Char.ofNat_toNat]
  · have hesc : escChar c = [c] := by
      simp only [escChar, if_neg h1, if_neg h2, if_neg h3, if_neg h4, if_neg h5,
        if_neg h6, if_neg h7, if_neg h8]
    rw [hesc, List.singleton_append]
    rw [parseStrL.eq_def]
    split
    · rename_i heq
      rw [List.cons.injEq] at heq
      exact absurd heq.1 h1
    · rename_i heq
      rw [List.cons.injEq] at heq
      exact absurd heq.1 h2
    · rename_i heq
      rw [List.cons.injEq] at heq
      exact absurd heq.1 h2
    · rename_i heq
      rw [List.cons.injEq] at heq
      rw [heq.1, heq.2]
    · rename_i heq
      exact absurd heq (by simp)

theorem parseStrL_escList :
    ∀ (cs : List Char) (acc rest : List Char),
      parseStrL acc (escList cs ++ '"' :: rest) =
        some (String.mk (acc.reverse ++ cs), rest)
  | [], acc, rest => by simp [escList, parseStrL]
  | c :: cs, acc, rest => by
      rw [escList, List.append_assoc, parseStrL_esc,
        parseStrL_escList cs (c :: acc) rest]
      simp

theorem parseStrL_quote (s : String) (rest : List Char) :
    parseStrL [] (escList s.data ++ '"' :: rest) = some (s, rest) := by
  rw [parseStrL_escList]
  rfl

/-! ### Whitespace and parser step lemmas -/

theorem dropWs_ws {c : Char} (l : List Char) (h : isWsCh c = true) :
    dropWs (c :: l) = dropWs l := by simp [dropWs, h]

theorem dropWs_nws {c : Char} (l : List Char) (h : isWsCh c = false) :
    dropWs (c :: l) = c :: l := by simp [dropWs, h]

theorem dropWs_replicate_space :
    ∀ (n : Nat) (l : List Char), dropWs (List.replicate n ' ' ++ l) = dropWs l
  | 0, l => rfl
  | n + 1, l => by
      rw [List.replicate_succ, List.cons_append, dropWs_ws _ (by rfl)]
      exact dropWs_replicate_space n l

theorem dropWs_pad (lvl : Nat) (l : List Char) : dropWs (pad lvl ++ l) = dropWs l :=
  dropWs_replicate_space (2 * lvl) l

theorem dropWs_idem : ∀ l : List Char, dropWs (dropWs l) = dropWs l
  | [] => rfl
  | c :: l => by
      by_cases h : isWsCh c = true
      · rw [dropWs_ws _ h]
        exact dropWs_idem l
      · rw [dropWs_nws _ (by simpa using h), dropWs_nws _ (by simpa using h)]

theorem parseVal_ws_congr (fuel : Nat) (a b : List Char) (h : dropWs a = dropWs b) :
    parseVal fuel a = parseVal fuel b := by
  cases fuel with
  | zero => rfl
  | succ f => simp only [parseVal, h]

theorem parseVal_null_step (f : Nat) (r : List Char) :
    parseVal (f + 1) ('n' :: 'u' :: 'l' :: 'l' :: r) = some (.jnull, r) := rfl

theorem parseVal_true_step (f : Nat) (r : List Char) :
    parseVal (f + 1) ('t' :: 'r' :: 'u' :: 'e' :: r) = some (.jbool true, r) := rfl

theorem parseVal_false_step (f : Nat) (r : List Char) :
    parseVal (f + 1) ('f' :: 'a' :: 'l' :: 's' :: 'e' :: r) = some (.jbool false, r) := rfl

theorem parseVal_str_step (f : Nat) (r : List Char) :
    parseVal (f + 1) ('"' :: r) =
      (parseStrL [] r).map (fun p => (.jstr p.1, p.2)) := rfl

theorem parseVal_obj_step (f : Nat) (r : List Char) :
    parseVal (f + 1) ('{' :: r) =
      (match dropWs r with
       | '}' :: r' => some (.jobj [], r')
       | _ => (parseVal.parseMems f (dropWs r)).map (fun p => (.jobj p.1, p.2))) := rfl

theorem parseVal_neg_step (f : Nat) (r : List Char) :
    parseVal (f + 1) ('-' :: r) =
      (parseNumL ('-' :: r)).map (fun p => (.jnum p.1, p.2)) := rfl

theorem parseVal_digit_step (d : Nat) (hd : d < 10) (f : Nat) (r : List Char) :
    parseVal (f + 1) (digitChar d :: r) =
      (parseNumL (digitChar d :: r)).map (fun p => (.jnum p.1, p.2)) := by
  interval_cases d <;> rfl

theorem parseMems_quote_step (f : Nat) (r : List Char) :
    parseVal.parseMems (f + 1) ('"' :: r) =
      (match parseStrL [] r with
       | none => none
       | some (k, r1) =>
           match dropWs r1 with
           | ':' :: r2 =>
               (match parseVal f r2 with
                | none => none
                | some (v, r3) =>
                    match dropWs r3 with
                    | ',' :: r4 =>
                        (parseVal.parseMems f (dropWs r4)).map
                          (fun p => ((k, v) :: p.1, p.2))
                    | '}' :: r4 => some ([(k, v)], r4)
                    | _ => none)
           | _ => none) := rfl

theorem parseVal_intChars (i : Int) (f : Nat) (rest : List Char)
    (hr : numStop rest = true) :
    parseVal (f + 1) (intChars i ++ rest) = some (.jnum i, rest) := by
  by_cases hneg : i < 0
  · have harg : intChars i ++ rest = '-' :: (natDigits i.natAbs ++ rest) := by
      simp [intChars, hneg]
    rw [harg, parseVal_neg_step, ← harg, parseNumL_intChars i rest hr]
    rfl
  · obtain ⟨d, t, hd, ht⟩ := natDigits_head i.natAbs
    have harg : intChars i ++ rest = digitChar d :: (t ++ rest) := by
      simp [intChars, hneg, ht]
    rw [harg, parseVal_digit_step d hd, ← harg, parseNumL_intChars i rest hr]
    rfl

theorem nws_of_digit {c : Char} (h : isDigitCh c = true) : isWsCh c = false := by
  simp only [isDigitCh, Bool.and_eq_true, decide_eq_true_eq] at h
  simp only [isWsCh, Bool.or_eq_false_iff, decide_eq_false_iff_not]
  refine ⟨⟨⟨?_, ?_⟩, ?_⟩, ?_⟩ <;> rintro rfl <;> exact absurd h (by decide)

theorem jsize_pos : ∀ v : JValue, 1 ≤ jsize v
  | .jnull => le_refl 1
  | .jbool _ => le_refl 1
  | .jnum _ => le_refl 1
  | .jstr _ => le_refl 1
  | .jobj _ => Nat.le_add_right 1 _

theorem jsizeFields_pos :
    ∀ l : List (String × JValue), l ≠ [] → 1 ≤ jsize.jsizeFields l
  | [], h => absurd rfl h
  | (_, v) :: _, _ => by simp [jsize.jsizeFields]; omega

/-- The head of a rendered value is never whitespace, so the parser's
whitespace skip leaves a rendered value alone. -/
theorem dropWs_renderV (lvl : Nat) (v : JValue) (rest : List Char) :
    dropWs (renderV lvl v ++ rest) = renderV lvl v ++ rest := by
  cases v with
  | jnull => exact dropWs_nws _ (by rfl)
  | jbool b => cases b <;> exact dropWs_nws _ (by rfl)
  | jstr s => exact dropWs_nws _ (by rfl)
  | jnum n =>
      show dropWs (intChars n ++ rest) = intChars n ++ rest
      by_cases hneg : n < 0
      · have harg : intChars n ++ rest = '-' :: (natDigits n.natAbs ++ rest) := by
          simp [intChars, hneg]
        rw [harg]
        exact dropWs_nws _ (by rfl)
      · obtain ⟨d, t, hd, ht⟩ := natDigits_head n.natAbs
        have harg : intChars n ++ rest = digitChar d :: (t ++ rest) := by
          simp [intChars, hneg, ht]
        rw [harg]
        exact dropWs_nws _ (nws_of_digit (digitChar_spec d hd).1)
  | jobj fs =>
      cases fs with
      | nil => exact dropWs_nws _ (by rfl)
      | cons m ms => exact dropWs_nws _ (by rfl)

/-- The node count of a document never exceeds the length of its rendering,
so input length plus one is always enough parser fuel. -/
theorem jsize_le_render_aux : ∀ N : Nat,
    (∀ (v : JValue) (lvl : Nat), jsize v ≤ N → jsize v ≤ (renderV lvl v).length) ∧
    (∀ (l : List (String × JValue)) (lvl : Nat), l ≠ [] →
      jsize.jsizeFields l ≤ N →
      jsize.jsizeFields l ≤ (renderV.renderMems lvl l).length) := by
  intro N
  induction N with
  | zero =>
      constructor
      · intro v lvl hN
        have := jsize_pos v
        omega
      · intro l lvl hne hN
        have := jsizeFields_pos l hne
        omega
  | succ N ih =>
      constructor
      · intro v lvl hN
        cases v with
        | jnull => simp [jsize, renderV]
        | jbool b => cases b <;> simp [jsize, renderV]
        | jnum n =>
            have : natDigits n.natAbs ≠ [] := natDigits_ne_nil n.natAbs
            have hlen : 1 ≤ (natDigits n.natAbs).length := by
              cases hni : natDigits n.natAbs with
              | nil => exact absurd hni this
              | cons a b => simp
            by_cases hneg : n < 0
            · simp [jsize, renderV, intChars, hneg]
            · simp [jsize, renderV, intChars, hneg]
              exact hlen
        | jstr s => simp [jsize, renderV, quoteStr]
        | jobj fs =>
            cases fs with
            | nil => simp [jsize, jsize.jsizeFields, renderV]
            | cons m ms =>
                have hfields : jsize.jsizeFields (m :: ms) ≤
                    (renderV.renderMems lvl (m :: ms)).length := by
                  refine ih.2 (m :: ms) lvl (by simp) ?_
                  simp only [jsize] at hN
                  omega
                simp only [jsize, renderV, List.length_cons, List.length_append]
                omega
      · intro l lvl hne hN
        cases l with
        | nil => exact absurd rfl hne
        | cons hd tl =>
            obtain ⟨k, v⟩ := hd
            have hv : jsize v ≤ (renderV (lvl + 1) v).length := by
              refine ih.1 v (lvl + 1) ?_
              simp only [jsize.jsizeFields] at hN
              omega
            cases tl with
            | nil =>
                simp only [jsize.jsizeFields, renderV.renderMems, quoteStr, pad,
                  List.length_append, List.length_cons, List.length_replicate]
                omega
            | cons m2 tl2 =>
                have htl : jsize.jsizeFields (m2 :: tl2) ≤
                    (renderV.renderMems lvl (m2 :: tl2)).length := by
                  refine ih.2 (m2 :: tl2) lvl (by simp) ?_
                  simp only [jsize.jsizeFields] at hN ⊢
                  omega
                simp only [jsize.jsizeFields, renderV.renderMems, quoteStr, pad,
                  List.length_append, List.length_cons, List.length_replicate] at htl ⊢
                omega

/-- Round trip of the indented serializer through the parser: a rendered
value followed by a remainder that cannot extend a number parses back to
the value, and a rendered nonempty member list followed by its closing
newline, indent and brace parses back to the members.  The bound N drives
the induction; fuel at least the node count is enough. -/
theorem rt_aux : ∀ N : Nat,
    (∀ (v : JValue) (lvl fuel : Nat) (rest : List Char),
        jsize v ≤ N → jsize v ≤ fuel → numStop rest = true →
        parseVal fuel (renderV lvl v ++ rest) = some (v, rest)) ∧
    (∀ (l : List (String × JValue)) (lvl g : Nat) (rest : List Char),
        l ≠ [] → jsize.jsizeFields l ≤ N → jsize.jsizeFields l ≤ g →
        parseVal.parseMems g
          (dropWs (renderV.renderMems lvl l ++ '\n' :: (pad lvl ++ '}' :: rest))) =
          some (l, rest)) := by
  intro N
  induction N with
  | zero =>
      constructor
      · intro v lvl fuel rest hN _ _
        have := jsize_pos v
        omega
      · intro l lvl g rest hne hN _
        have := jsizeFields_pos l hne
        omega
  | succ N ih =>
      constructor
      · intro v lvl fuel rest hN hfuel hrest
        have hfpos : 1 ≤ fuel := le_trans (jsize_pos v) hfuel
        obtain ⟨f, rfl⟩ : ∃ f, fuel = f + 1 := ⟨fuel - 1, by omega⟩
        cases v with
        | jnull => exact parseVal_null_step f rest
        | jbool b =>
            cases b
            · exact parseVal_false_step f rest
            · exact parseVal_true_step f rest
        | jnum n => exact parseVal_intChars n f rest hrest
        | jstr s =>
            show parseVal (f + 1) (('"' :: (escList s.data ++ ['"'])) ++ rest) = _
            rw [List.cons_append, parseVal_str_step, List.append_assoc,
              List.singleton_append, parseStrL_quote]
            rfl
        | jobj fs =>
            cases fs with
            | nil =>
                show parseVal (f + 1) ('{' :: '}' :: rest) = _
                rw [parseVal_obj_step, dropWs_nws _ (by rfl)]
                rfl
            | cons hd ms =>
                obtain ⟨k, v⟩ := hd
                have hshape : renderV lvl (.jobj ((k, v) :: ms)) ++ rest =
                    '{' :: '\n' :: (renderV.renderMems lvl ((k, v) :: ms) ++
                      '\n' :: (pad lvl ++ '}' :: rest)) := by
                  show ('{' :: '\n' :: (renderV.renderMems lvl ((k, v) :: ms) ++
                    '\n' :: (pad lvl ++ ['}']))) ++ rest = _
                  simp [List.append_assoc]
                have hmems := ih.2 ((k, v) :: ms) lvl f rest (by simp)
                  (by simp only [jsize] at hN; omega)
                  (by simp only [jsize] at hfuel; omega)
                have hhead : ∃ t,
                    dropWs (renderV.renderMems lvl ((k, v) :: ms) ++
                      '\n' :: (pad lvl ++ '}' :: rest)) = '"' :: t := by
                  cases ms with
                  | nil =>
                      refine ⟨escList k.data ++ ['"'] ++
                        (':' :: ' ' :: renderV (lvl + 1) v ++
                          '\n' :: (pad lvl ++ '}' :: rest)), ?_⟩
                      show dropWs ((pad (lvl + 1) ++
                        (quoteStr k ++ ':' :: ' ' :: renderV (lvl + 1) v)) ++
                        ('\n' :: (pad lvl ++ '}' :: rest))) = _
                      rw [List.append_assoc, dropWs_pad]
                      rw [show (quoteStr k ++ ':' :: ' ' :: renderV (lvl + 1) v) ++
                          '\n' :: (pad lvl ++ '}' :: rest) =
                          '"' :: (escList k.data ++ ['"'] ++
                            (':' :: ' ' :: renderV (lvl + 1) v ++
                              '\n' :: (pad lvl ++ '}' :: rest))) from by
                        simp [quoteStr, List.append_assoc]]
                      exact dropWs_nws _ (by rfl)
                  | cons m2 ms2 =>
                      refine ⟨escList k.data ++ ['"'] ++
                        (':' :: ' ' :: renderV (lvl + 1) v ++
                          ',' :: '\n' :: renderV.renderMems lvl (m2 :: ms2) ++
                          '\n' :: (pad lvl ++ '}' :: rest)), ?_⟩
                      show dropWs ((pad (lvl + 1) ++
                        (quoteStr k ++ ':' :: ' ' :: renderV (lvl + 1) v) ++
                        ',' :: '\n' :: renderV.renderMems lvl (m2 :: ms2)) ++
                        ('\n' :: (pad lvl ++ '}' :: rest))) = _
                      rw [List.append_assoc, List.append_assoc, dropWs_pad]
                      rw [show (quoteStr k ++ ':' :: ' ' :: renderV (lvl + 1) v) ++
                          (',' :: '\n' :: renderV.renderMems lvl (m2 :: ms2) ++
                            '\n' :: (pad lvl ++ '}' :: rest)) =
                          '"' :: (escList k.data ++ ['"'] ++
                            (':' :: ' ' :: renderV (lvl + 1) v ++
                              ',' :: '\n' :: renderV.renderMems lvl (m2 :: ms2) ++
                              '\n' :: (pad lvl ++ '}' :: rest))) from by
                        simp [quoteStr, List.append_assoc]]
                      exact dropWs_nws _ (by rfl)
                obtain ⟨t, ht⟩ := hhead
                rw [ht] at hmems
                rw [hshape, parseVal_obj_step, dropWs_ws _ (by rfl), ht]
                show (parseVal.parseMems f ('"' :: t)).map
                  (fun p => (JValue.jobj p.1, p.2)) = _
                rw [hmems]
                rfl
      · intro l lvl g rest hne hN hg
        cases l with
        | nil => exact absurd rfl hne
        | cons hd tl =>
            obtain ⟨k, v⟩ := hd
            have hgpos : 1 ≤ g := le_trans (jsizeFields_pos _ (by simp)) hg
            obtain ⟨g', rfl⟩ : ∃ g', g = g' + 1 := ⟨g - 1, by omega⟩
            have hvN : jsize v ≤ N := by
              simp only [jsize.jsizeFields] at hN
              omega
            have hvg : jsize v ≤ g' := by
              simp only [jsize.jsizeFields] at hg
              omega
            cases tl with
            | nil =>
                have hshape : dropWs (renderV.renderMems lvl [(k, v)] ++
                    '\n' :: (pad lvl ++ '}' :: rest)) =
                    '"' :: (escList k.data ++ '"' ::
                      (':' :: ' ' :: (renderV (lvl + 1) v ++
                        '\n' :: (pad lvl ++ '}' :: rest)))) := by
                  show dropWs ((pad (lvl + 1) ++
                    (quoteStr k ++ ':' :: ' ' :: renderV (lvl + 1) v)) ++ _) = _
                  rw [List.append_assoc, dropWs_pad]
                  rw [show (quoteStr k ++ ':' :: ' ' :: renderV (lvl + 1) v) ++
                      '\n' :: (pad lvl ++ '}' :: rest) =
                      '"' :: (escList k.data ++ '"' ::
                        (':' :: ' ' :: (renderV (lvl + 1) v ++
                          '\n' :: (pad lvl ++ '}' :: rest)))) from by
                    simp [quoteStr, List.append_assoc]]
                  exact dropWs_nws _ (by rfl)
                rw [hshape, parseMems_quote_step, parseStrL_quote]
                show (match parseVal g'
                    (' ' :: (renderV (lvl + 1) v ++ '\n' :: (pad lvl ++ '}' :: rest))) with
                  | none => none
                  | some (v', r3) =>
                      match dropWs r3 with
                      | ',' :: r4 =>
                          (parseVal.parseMems g' (dropWs r4)).map
                            (fun p => ((k, v') :: p.1, p.2))
                      | '}' :: r4 => some ([(k, v')], r4)
                      | _ => none) = some ([(k, v)], rest)
                have hval := ih.1 v (lvl + 1) g'
                  ('\n' :: (pad lvl ++ '}' :: rest)) hvN hvg (by rfl)
                have hcongr := parseVal_ws_congr g'
                  (' ' :: (renderV (lvl + 1) v ++ '\n' :: (pad lvl ++ '}' :: rest)))
                  (renderV (lvl + 1) v ++ '\n' :: (pad lvl ++ '}' :: rest))
                  (by rw [dropWs_ws _ (by rfl)])
                rw [hcongr, hval]
                show (match dropWs ('\n' :: (pad lvl ++ '}' :: rest)) with
                  | ',' :: r4 =>
                      (parseVal.parseMems g' (dropWs r4)).map
                        (fun p => ((k, v) :: p.1, p.2))
                  | '}' :: r4 => some ([(k, v)], r4)
                  | _ => none) = some ([(k, v)], rest)
                rw [dropWs_ws _ (by rfl), dropWs_pad, dropWs_nws _ (by rfl)]
                rfl
            | cons m2 tl2 =>
                obtain ⟨k2, v2⟩ := m2
                have htlN : jsize.jsizeFields ((k2, v2) :: tl2) ≤ N := by
                  simp only [jsize.jsizeFields] at hN ⊢
                  omega
                have htlg : jsize.jsizeFields ((k2, v2) :: tl2) ≤ g' := by
                  simp only [jsize.jsizeFields] at hg ⊢
                  omega
                have hshape : dropWs (renderV.renderMems lvl ((k, v) :: (k2, v2) :: tl2) ++
                    '\n' :: (pad lvl ++ '}' :: rest)) =
                    '"' :: (escList k.data ++ '"' ::
                      (':' :: ' ' :: (renderV (lvl + 1) v ++
                        ',' :: '\n' :: (renderV.renderMems lvl ((k2, v2) :: tl2) ++
                          '\n' :: (pad lvl ++ '}' :: rest))))) := by
                  show dropWs ((pad (lvl + 1) ++
                    (quoteStr k ++ ':' :: ' ' :: renderV (lvl + 1) v) ++
                    ',' :: '\n' :: renderV.renderMems lvl ((k2, v2) :: tl2)) ++ _) = _
                  rw [List.append_assoc, List.append_assoc, dropWs_pad]
                  rw [show (quoteStr k ++ ':' :: ' ' :: renderV (lvl + 1) v) ++
                      (',' :: '\n' :: renderV.renderMems lvl ((k2, v2) :: tl2) ++
                        '\n' :: (pad lvl ++ '}' :: rest)) =
                      '"' :: (escList k.data ++ '"' ::
                        (':' :: ' ' :: (renderV (lvl + 1) v ++
                          ',' :: '\n' :: (renderV.renderMems lvl ((k2, v2) :: tl2) ++
                            '\n' :: (pad lvl ++ '}' :: rest))))) from by
                    simp [quoteStr, List.append_assoc]]
                  exact dropWs_nws _ (by rfl)
                rw [hshape, parseMems_quote_step, parseStrL_quote]
                show (match parseVal g'
                    (' ' :: (renderV (lvl + 1) v ++
                      ',' :: '\n' :: (renderV.renderMems lvl ((k2, v2) :: tl2) ++
                        '\n' :: (pad lvl ++ '}' :: rest)))) with
                  | none => none
                  | some (v', r3) =>
                      match dropWs r3 with
                      | ',' :: r4 =>
                          (parseVal.parseMems g' (dropWs r4)).map
                            (fun p => ((k, v') :: p.1, p.2))
                      | '}' :: r4 => some ([(k, v')], r4)
                      | _ => none) = some ((k, v) :: (k2, v2) :: tl2, rest)
                have hval := ih.1 v (lvl + 1) g'
                  (',' :: '\n' :: (renderV.renderMems lvl ((k2, v2) :: tl2) ++
                    '\n' :: (pad lvl ++ '}' :: rest))) hvN hvg (by rfl)
                have hcongr := parseVal_ws_congr g'
                  (' ' :: (renderV (lvl + 1) v ++
                    ',' :: '\n' :: (renderV.renderMems lvl ((k2, v2) :: tl2) ++
                      '\n' :: (pad lvl ++ '}' :: rest))))
                  (renderV (lvl + 1) v ++
                    ',' :: '\n' :: (renderV.renderMems lvl ((k2, v2) :: tl2) ++
                      '\n' :: (pad lvl ++ '}' :: rest)))
                  (by rw [dropWs_ws _ (by rfl)])
                rw [hcongr, hval]
                show (parseVal.parseMems g'
                    (dropWs ('\n' :: (renderV.renderMems lvl ((k2, v2) :: tl2) ++
                      '\n' :: (pad lvl ++ '}' :: rest))))).map
                  (fun p => ((k, v) :: p.1, p.2)) = some ((k, v) :: (k2, v2) :: tl2, rest)
                rw [dropWs_ws _ (by rfl),
                  ih.2 ((k2, v2) :: tl2) lvl g' rest (by simp) htlN htlg]
                rfl

/-- The serializer and parser are a round trip on every document. -/
theorem parse_stringify2 (v : JValue) : parseJson (stringify2 v) = some v := by
  have hlen := (jsize_le_render_aux (jsize v)).1 v 0 le_rfl
  have h := (rt_aux (jsize v)).1 v 0 ((renderV 0 v).length + 1) [] le_rfl (by omega) rfl
  rw [List.append_nil] at h
  show (match parseVal ((renderV 0 v).length + 1) (renderV 0 v) with
    | some (w, r) => if dropWs r = [] then some w else none
    | none => none) = some v
  rw [h]
  rfl

/-- C3: persistence is write-through.  Whenever the save-setting handler
acknowledges (and it acknowledges with true), the settings file already
holds exactly the two-space-indented JSON.stringify serialization of the
whole updated in-memory document, and that file content parses back to the
in-memory document; likewise after restore-default-settings returns. -/
theorem write_through_persistence :
    (∀ (st : MainState) (key : String) (value : JValue),
      (match handleSaveSetting st key value with
       | .ok p => p.1 = true ∧ p.2.file = some (stringify2 p.2.settings) ∧
           parseJson (stringify2 p.2.settings) = some p.2.settings
       | .error _ => True)) ∧
    (∀ st : MainState,
      (handleRestoreDefaults st).2.file =
        some (stringify2 (handleRestoreDefaults st).2.settings) ∧
      parseJson (stringify2 (handleRestoreDefaults st).2.settings) =
        some (handleRestoreDefaults st).2.settings) := by
  constructor
  · intro st key value
    cases hs : setKeys st.settings (jsSplitDot key) value with
    | error e => simp [handleSaveSetting, hs]
    | ok s' => simp [handleSaveSetting, hs, saveSettingsFile, parse_stringify2]
  · intro st
    exact ⟨rfl, parse_stringify2 _⟩
